import Mathlib

/-!
Shallow embedding of the finance-papers repository: the OpenAlex article and
working-paper persistence layer (insert-or-skip into SQLite), the cursor-based
paginated fetchers, the author-ranking aggregations, the author-list CSV
writer/reader pair, the keyword fallback classifier and the Journal of Finance
issue scraper entry points, together with theorems settling the specification
claims about them.

Conventions of the embedding:
  - a SQLite table is a list of row structures in insertion (autoincrement) order;
  - Python `None` becomes `Option.none`; Python string truthiness is `truthyS`;
  - `datetime.now()` is passed in as an explicit `now : String` argument;
  - an HTTP interaction is a value of `HttpResult`: a status code with a parsed
    body, or a raised request exception carried as a message.
-/

namespace FinancePapers

/-! ## Python primitive helpers -/

/-- Truthiness of a Python value that is `None` or a string: `None` and the
empty string are falsy. -/
def truthyS : Option String → Bool
  | none => false
  | some s => decide (s ≠ "")

/-- Python `x or y` where `x`, `y` are `None`-or-string values. -/
def pyOrS (x y : Option String) : Option String :=
  match x with
  | some s => if s = "" then y else some s
  | none => y

/-- Boolean test that `n` is a leading segment of `l`. -/
def startsWithB [DecidableEq α] : List α → List α → Bool
  | [], _ => true
  | _ :: _, [] => false
  | a :: as, b :: bs => decide (a = b) && startsWithB as bs

/-- Boolean test that `n` occurs contiguously inside `h`. -/
def hasInfixB [DecidableEq α] (n : List α) : List α → Bool
  | [] => startsWithB n []
  | b :: t => startsWithB n (b :: t) || hasInfixB n t

/-- Python `needle in hay` on strings: substring containment. -/
def pyIn (needle hay : String) : Bool :=
  hasInfixB needle.toList hay.toList

/-- Split a character list at every occurrence of `c`, as Python
`str.split(sep)` splits on a one-character separator. -/
def splitChar (c : Char) : List Char → List (List Char)
  | [] => [[]]
  | x :: xs =>
    if x = c then [] :: splitChar c xs
    else
      match splitChar c xs with
      | [] => [[x]]
      | h :: t => (x :: h) :: t

/-- Python `s.split(c)` for a one-character separator. -/
def pySplitOnChar (c : Char) (s : String) : List String :=
  (splitChar c s.toList).map String.mk

/-- Python `s.lower()` (character-wise lowering). -/
def pyLower (s : String) : String :=
  ⟨s.toList.map Char.toLower⟩

/-- Python `s.strip()`: drop whitespace from both ends. -/
def pyStrip (s : String) : String :=
  ⟨((s.toList.dropWhile Char.isWhitespace).reverse.dropWhile Char.isWhitespace).reverse⟩

/-- Python `s.split('|', 1)` when `'|' in s`: the part before the first bar and
the rest; `none` when the string holds no bar. -/
def pySplitBar (s : String) : Option (String × String) :=
  match pySplitOnChar '|' s with
  | [] => none
  | [_] => none
  | x :: rest => some (x, String.intercalate "|" rest)

/-- One step of a stable descending insertion sort: insert `a` into a list
already sorted descending by `key` under the strict comparison `lt`, after
every element whose key is strictly greater. -/
def insDesc (lt : κ → κ → Bool) (key : α → κ) (a : α) : List α → List α
  | [] => [a]
  | b :: l => if lt (key a) (key b) then b :: insDesc lt key a l else a :: b :: l

/-- Python `sorted(xs, key=key, reverse=True)`: a stable sort putting larger
keys first (`lt` is the strict order on keys). -/
def pySortDesc (lt : κ → κ → Bool) (key : α → κ) : List α → List α
  | [] => []
  | a :: l => insDesc lt key a (pySortDesc lt key l)

/-- Strict `<` on naturals as a Boolean comparison. -/
def natLtB (a b : ℕ) : Bool := decide (a < b)

/-- Strict lexicographic `<` on pairs of naturals, as Python compares tuples. -/
def lexLtB (a b : ℕ × ℕ) : Bool :=
  decide (a.1 < b.1) || (decide (a.1 = b.1) && decide (a.2 < b.2))

/-- Python `max(h :: t, key=snd)`: the first element attaining the maximal
second component (a later element replaces the current best only when strictly
greater). -/
def pyMaxBySnd (h : α × ℕ) : List (α × ℕ) → α × ℕ
  | [] => h
  | x :: t => pyMaxBySnd (if h.2 < x.2 then x else h) t

/-- Lexicographic code-point comparison of character lists, as Python compares
strings. -/
def listLtB : List Char → List Char → Bool
  | [], [] => false
  | [], _ :: _ => true
  | _ :: _, [] => false
  | a :: as, b :: bs =>
    if a.toNat < b.toNat then true
    else if b.toNat < a.toNat then false
    else listLtB as bs

/-- Python `a < b` on strings: lexicographic comparison by code point. -/
def strLtB (a b : String) : Bool := listLtB a.toList b.toList

/-! ## OpenAlex journal-article persistence (`getpapers-openalex.py`) -/

/-- One entry of the denormalized author list stored in `authors_json`. -/
structure AuthorEntry where
  name : Option String
  orcid : Option String
  institutions : List String
deriving DecidableEq

/-- An article dict as `fetch_articles` yields it. -/
structure Article where
  id : String
  title : Option String
  publication_date : Option String
  doi : Option String
  cited_by_count : ℕ
  authors : List AuthorEntry
deriving DecidableEq

/-- A row of the `openalex_articles` table. -/
structure OpenAlexRow where
  openalex_id : String
  title : Option String
  publication_date : Option String
  doi : Option String
  cited_by_count : Option ℕ
  authors_json : List AuthorEntry
  scraped_at : String
deriving DecidableEq

/-- The pre-insert duplicate check of `save_to_db`:
`SELECT id FROM openalex_articles WHERE openalex_id = ?` finds a row. -/
def hasOpenalexId (db : List OpenAlexRow) (k : String) : Bool :=
  db.any fun r => decide (r.openalex_id = k)

/-- The row `save_to_db` inserts for an article. -/
def rowOfArticle (a : Article) (now : String) : OpenAlexRow :=
  { openalex_id := a.id
    title := a.title
    publication_date := a.publication_date
    doi := a.doi
    cited_by_count := some a.cited_by_count
    authors_json := a.authors
    scraped_at := now }

/-- The shared insert-or-skip loop shape of the persistence functions: for each
incoming item, skip it when the duplicate check `dup` finds it in the current
table, otherwise append the row `mk` builds for it; `n` and `d` accumulate
`new_count` and `duplicate_count`. -/
def insertOrSkip (dup : List ρ → ι → Bool) (mk : ι → ρ) :
    List ρ → List ι → ℕ → ℕ → List ρ × ℕ × ℕ
  | db, [], n, d => (db, n, d)
  | db, i :: rest, n, d =>
    if dup db i then insertOrSkip dup mk db rest n (d + 1)
    else insertOrSkip dup mk (db ++ [mk i]) rest (n + 1) d

/-- `save_to_db(articles)` on a database holding `db`: skip each article whose
`openalex_id` already has a row, insert the rest; returns the resulting table,
`new_count` and `duplicate_count`. -/
def save_to_db (db : List OpenAlexRow) (articles : List Article) (now : String) :
    List OpenAlexRow × ℕ × ℕ :=
  insertOrSkip (fun db a => hasOpenalexId db a.id) (fun a => rowOfArticle a now)
    db articles 0 0

/-! ## Working-paper persistence (`get_wp.py`) -/

/-- A working-paper dict as `fetch_working_papers_for_author` yields it. -/
structure WpPaper where
  openalex_id : String
  title : Option String
  publication_date : Option String
  doi : Option String
  author_name : String
  type : Option String
  primary_location : Option String
  cited_by_count : ℕ
deriving DecidableEq

/-- A row of the `working_papers` table. -/
structure WpRow where
  openalex_id : String
  title : Option String
  publication_date : Option String
  doi : Option String
  author_name : String
  type : Option String
  primary_location : Option String
  cited_by_count : Option ℕ
  scraped_at : String
deriving DecidableEq

/-- Duplicate check of `save_working_papers_to_db`:
`SELECT id FROM working_papers WHERE openalex_id = ?` finds a row. -/
def hasWpOpenalexId (db : List WpRow) (k : String) : Bool :=
  db.any fun r => decide (r.openalex_id = k)

/-- The row `save_working_papers_to_db` inserts for a paper. -/
def rowOfWpPaper (p : WpPaper) (now : String) : WpRow :=
  { openalex_id := p.openalex_id
    title := p.title
    publication_date := p.publication_date
    doi := p.doi
    author_name := p.author_name
    type := p.type
    primary_location := p.primary_location
    cited_by_count := some p.cited_by_count
    scraped_at := now }

/-- `save_working_papers_to_db(papers)` on a database holding `db`: the same
insert-or-skip loop keyed on `openalex_id`. -/
def save_working_papers_to_db (db : List WpRow) (papers : List WpPaper)
    (now : String) : List WpRow × ℕ × ℕ :=
  insertOrSkip (fun db p => hasWpOpenalexId db p.openalex_id)
    (fun p => rowOfWpPaper p now) db papers 0 0

/-! ## Paginated fetching (`fetch_articles`, `fetch_working_papers_for_author`) -/

/-- An authorship object of an OpenAlex work. -/
structure Authorship where
  display_name : Option String
  orcid : Option String
  institutions : List String
deriving DecidableEq

/-- A work object of a `GET /works` response, as `fetch_articles` reads it. -/
structure Work where
  id : String
  title : Option String
  publication_date : Option String
  doi : Option String
  cited_by_count : Option ℕ
  authorships : List Authorship
deriving DecidableEq

/-- One page of a paginated `GET /works` response: the `results` batch and
`meta.next_cursor`. -/
structure PageOf (α : Type) where
  results : List α
  next_cursor : Option String
deriving DecidableEq

/-- The page sequence a well-behaved paginated endpoint serves: every page
except the last carries a truthy `next_cursor`, the last does not. -/
def cursorLinked : List (PageOf α) → Bool
  | [] => true
  | [p] => !truthyS p.next_cursor
  | p :: q :: rest => truthyS p.next_cursor && cursorLinked (q :: rest)

/-- The article dict `fetch_articles` yields for one work
(`work.get("cited_by_count", 0)` defaults a missing count to 0). -/
def workToArticle (w : Work) : Article :=
  { id := w.id
    title := w.title
    publication_date := w.publication_date
    doi := w.doi
    cited_by_count := w.cited_by_count.getD 0
    authors := w.authorships.map fun au =>
      { name := au.display_name, orcid := au.orcid, institutions := au.institutions } }

/-- `fetch_articles`: starting from cursor `"*"`, the loop yields a page's
results and continues with `meta.next_cursor` while that token is truthy. The
successive pages the server returns are the input list; the loop consumes the
next page exactly when the current page carries a truthy cursor. -/
def fetch_articles : List (PageOf Work) → List Article
  | [] => []
  | p :: rest =>
    p.results.map workToArticle ++
      (if truthyS p.next_cursor then fetch_articles rest else [])

/-- The outcome of one `requests.get`: a status code with the parsed body, or a
raised request exception carried as its message. -/
inductive HttpResult (α : Type) where
  | ok (status : ℕ) (body : α)
  | exc (msg : String)
deriving DecidableEq

/-- `response.raise_for_status()` raises `HTTPError` exactly for 4xx and 5xx
status codes. -/
def raisesForStatus (status : ℕ) : Bool :=
  decide (400 ≤ status) && decide (status < 600)

/-- A work object of the working-papers request, as `get_wp.py` reads it
(`primary_location`/`source` lookups collapsed to the display name they read). -/
structure WpWork where
  id : String
  title : Option String
  publication_date : Option String
  doi : Option String
  type : Option String
  primary_source_name : Option String
  cited_by_count : Option ℕ
deriving DecidableEq

/-- The paper dict built for one work of the working-papers response. -/
def wpWorkToPaper (author_name : String) (w : WpWork) : WpPaper :=
  { openalex_id := w.id
    title := w.title
    publication_date := w.publication_date
    doi := w.doi
    author_name := author_name
    type := w.type
    primary_location := w.primary_source_name
    cited_by_count := w.cited_by_count.getD 0 }

/-- The second half of `fetch_working_papers_for_author`: one works request
(no cursor loop), inside `try/except requests.RequestException`. An exception
or an error status yields `[]`; otherwise the single response page's results
are mapped to paper dicts. -/
def fetchWorksRequest (author_name : String) (works : HttpResult (List WpWork)) :
    List WpPaper :=
  match works with
  | .exc _ => []
  | .ok status ws =>
    if raisesForStatus status then []
    else ws.map (wpWorkToPaper author_name)

/-- `data["results"][0]["id"].split('/')[-1]`: the last segment of an author
id URL. -/
def lastUrlSegment (s : String) : String :=
  (pySplitOnChar '/' s).getLastD ""

/-- `fetch_working_papers_for_author(author_name, year)`. When the name holds a
bar it carries its own author id; otherwise one author-search request resolves
the id (exception or error status or empty results: return `[]`). The works
request is `fetchWorksRequest`: a single page, no pagination.
`authorSearch` carries the id URLs of the author-search response's results. -/
def fetch_working_papers_for_author (author_name : String)
    (authorSearch : HttpResult (List String))
    (works : HttpResult (List WpWork)) : List WpPaper :=
  match pySplitBar author_name with
  | some (n, _i) => fetchWorksRequest (pyStrip n) works
  | none =>
    match authorSearch with
    | .exc _ => []
    | .ok status ids =>
      if raisesForStatus status then []
      else
        match ids with
        | [] => []
        | i :: _ =>
          let _author_id := lastUrlSegment i
          fetchWorksRequest author_name works

/-! ## Journal of Finance issue scraping (`scrape-jf.py`) -/

/-- The parsed page `BeautifulSoup` returns, abstracted to the list of
`article-result-container` elements the next stage reads from it. -/
structure Soup where
  containers : List String
deriving DecidableEq

/-- `scrape_jf_issue(volume, issue)`: status 200 returns the parsed soup,
any other status prints and returns `None`; a raised request exception is not
caught and propagates. -/
def scrape_jf_issue (resp : HttpResult Soup) : Except String (Option Soup) :=
  match resp with
  | .exc e => .error e
  | .ok status soup => .ok (if status = 200 then some soup else none)

/-- `extract_article_containers(soup)`: `None` (or a soup with no matches)
yields the empty list. -/
def extract_article_containers : Option Soup → List String
  | none => []
  | some s => s.containers

/-- The issue-scraper pipeline callers run: `scrape_jf_issue` followed by
`extract_article_containers`. -/
def scrapeJfPipeline (resp : HttpResult Soup) : Except String (List String) :=
  (scrape_jf_issue resp).map extract_article_containers

/-! ## Unified JF/AER/QJE persistence (`save_db.py`) -/

/-- An article dict of the HTML scrapers (`scrape-jf.py` and friends). -/
structure SArticle where
  title : Option String
  date : Option String
  authors : Option String
  abstract : Option String
  jofi_link : Option String
  aer_link : Option String
  qje_link : Option String
  article_link : Option String
  all_links : List String
  paragraph_count : Option ℕ
deriving DecidableEq

/-- A row of the unified `articles` table of `save_db.py`. -/
structure SARow where
  journal : String
  title : String
  date : String
  authors : String
  abstract : String
  volume : String
  issue : String
  article_link : Option String
  all_links : List String
  paragraph_count : Option ℕ
  scraped_at : String
deriving DecidableEq

/-- The link field `save_articles_to_db` picks for a journal: `jofi_link` for
jf, `aer_link` for aer, `qje_link` for qje, else the first truthy of the four
link fields. `jl` is the already-lowercased journal code. -/
def linkOf (jl : String) (a : SArticle) : Option String :=
  if jl = "jf" then a.jofi_link
  else if jl = "aer" then a.aer_link
  else if jl = "qje" then a.qje_link
  else pyOrS (pyOrS (pyOrS a.jofi_link a.aer_link) a.qje_link) a.article_link

/-- `SELECT id FROM articles WHERE article_link = ? AND journal = ?` finds a
row (the bound link is a string, so a `NULL` stored link never matches). -/
def saLinkFound (db : List SARow) (jl : String) (l : String) : Bool :=
  db.any fun r => decide (r.article_link = some l) && decide (r.journal = jl)

/-- `SELECT id FROM articles WHERE title = ? AND journal = ?` finds a row. -/
def saTitleFound (db : List SARow) (jl : String) (t : String) : Bool :=
  db.any fun r => decide (r.title = t) && decide (r.journal = jl)

/-- The duplicate check of `save_articles_to_db`: first by the chosen link
(when truthy), then by the title (when truthy), both scoped to the journal. -/
def isDupSA (db : List SARow) (jl : String) (a : SArticle) : Bool :=
  let link := linkOf jl a
  let d1 :=
    match link with
    | none => false
    | some l => decide (l ≠ "") && saLinkFound db jl l
  d1 || (truthyS a.title && saTitleFound db jl (a.title.getD ""))

/-- The row `save_articles_to_db` inserts for an article (missing text fields
default to the empty string; `paragraph_count` is kept for jf only). -/
def rowOfSArticle (jl volume issue now : String) (a : SArticle) : SARow :=
  { journal := jl
    title := a.title.getD ""
    date := a.date.getD ""
    authors := a.authors.getD ""
    abstract := a.abstract.getD ""
    volume := volume
    issue := issue
    article_link := linkOf jl a
    all_links := a.all_links
    paragraph_count := if jl = "jf" then some (a.paragraph_count.getD 0) else none
    scraped_at := now }

/-- `save_articles_to_db(articles_data, journal, volume, issue)` on a database
holding `db` (`journal.lower()` is applied once up front): skip each article
whose link or title already has a row for this journal, insert the rest. -/
def save_articles_to_db (db : List SARow) (articles : List SArticle)
    (journal volume issue now : String) : List SARow × ℕ × ℕ :=
  insertOrSkip (fun db a => isDupSA db (pyLower journal) a)
    (rowOfSArticle (pyLower journal) volume issue now) db articles 0 0

/-- The duplicate check expressed on an inserted row's own fields: some stored
row of the journal carries the same truthy link, or the same truthy title. -/
def saRowMatched (db : List SARow) (jl : String) (r : SARow) : Bool :=
  (match r.article_link with
   | none => false
   | some l => decide (l ≠ "") && saLinkFound db jl l) ||
  (decide (r.title ≠ "") && saTitleFound db jl r.title)

/-! ## Author ranking (`rank_authors` of `query_openalex_db.py`) -/

/-- The per-author state `rank_authors` accumulates: `author_counts[name]`,
`author_citations[name]` and `author_latest_paper[name]`. -/
structure RAStat where
  count : ℕ
  citations : ℕ
  latest : String × String
deriving DecidableEq

/-- The dict-entry update for one author occurrence: create the entry when
absent (count 0, citations 0, latest `(pub_date or '', title or '')`), add 1
and the row's citations, then move `latest` forward when the row's date is
truthy and later. -/
def raUpdate (s : RAStat) (cit : ℕ) (pd t : Option String) : RAStat :=
  let s1 : RAStat := ⟨s.count + 1, s.citations + cit, s.latest⟩
  match pd with
  | some p =>
    if decide (p ≠ "") && strLtB s1.latest.1 p then
      ⟨s1.count, s1.citations, (p, t.getD "")⟩
    else s1
  | none => s1

/-- The fresh entry `rank_authors` creates for a first-seen author. -/
def raFresh (pd t : Option String) : RAStat :=
  ⟨0, 0, (pd.getD "", t.getD "")⟩

/-- Apply one author occurrence to the insertion-ordered dict. -/
def raBump (stats : List (String × RAStat)) (name : String) (cit : ℕ)
    (pd t : Option String) : List (String × RAStat) :=
  match stats with
  | [] => [(name, raUpdate (raFresh pd t) cit pd t)]
  | e :: rest =>
    if e.1 = name then (e.1, raUpdate e.2 cit pd t) :: rest
    else e :: raBump rest name cit pd t

/-- `for author in authors: name = author.get('name');  if name: ...` -/
def raProcessAuthors (stats : List (String × RAStat)) (authors : List AuthorEntry)
    (cit : ℕ) (pd t : Option String) : List (String × RAStat) :=
  authors.foldl
    (fun st au =>
      match au.name with
      | none => st
      | some nm => if nm = "" then st else raBump st nm cit pd t)
    stats

/-- The aggregation pass of `rank_authors` over every article row of the
selected databases (`citations = cited_by_count or 0`). -/
def raStats (rows : List OpenAlexRow) : List (String × RAStat) :=
  rows.foldl
    (fun st r =>
      raProcessAuthors st r.authors_json (r.cited_by_count.getD 0)
        r.publication_date r.title)
    []

/-- `rank_authors`: the aggregated authors sorted by
`key=lambda x: (count, citations), reverse=True`. -/
def rank_authors (rows : List OpenAlexRow) : List (String × RAStat) :=
  pySortDesc lexLtB (fun e => (e.2.count, e.2.citations)) (raStats rows)

/-- The paper count the aggregation reports for a name (0 when absent). -/
def raCountOf (stats : List (String × RAStat)) (name : String) : ℕ :=
  match stats with
  | [] => 0
  | e :: rest => if e.1 = name then e.2.count else raCountOf rest name

/-- The citation total the aggregation reports for a name (0 when absent). -/
def raCitationsOf (stats : List (String × RAStat)) (name : String) : ℕ :=
  match stats with
  | [] => 0
  | e :: rest => if e.1 = name then e.2.citations else raCitationsOf rest name

/-- The truthy author names of a stored `authors_json` list, in order. -/
def validNames (authors : List AuthorEntry) : List String :=
  authors.filterMap fun au =>
    match au.name with
    | none => none
    | some nm => if nm = "" then none else some nm

/-- The number of article rows whose parsed author list contains `name`. -/
def countRowsWith (rows : List OpenAlexRow) (name : String) : ℕ :=
  rows.countP fun r => decide (name ∈ validNames r.authors_json)

/-! ## Author-list CSV (`make_author_list`, `read_author_list`) -/

/-- The count-only dict update of `make_author_list`. -/
def mkBump (counts : List (String × ℕ)) (name : String) : List (String × ℕ) :=
  match counts with
  | [] => [(name, 1)]
  | e :: rest => if e.1 = name then (e.1, e.2 + 1) :: rest else e :: mkBump rest name

/-- The author loop of `make_author_list` over one row's parsed authors. -/
def mkProcessAuthors (counts : List (String × ℕ)) (authors : List AuthorEntry) :
    List (String × ℕ) :=
  authors.foldl
    (fun st au =>
      match au.name with
      | none => st
      | some nm => if nm = "" then st else mkBump st nm)
    counts

/-- The `author_counts` dict of `make_author_list` over every row. -/
def mkCounts (rows : List OpenAlexRow) : List (String × ℕ) :=
  rows.foldl (fun st r => mkProcessAuthors st r.authors_json) []

/-- `make_author_list`'s ranking: sorted by `key=lambda x: x[1], reverse=True`
(count only). -/
def make_author_list_ranked (rows : List OpenAlexRow) : List (String × ℕ) :=
  pySortDesc natLtB (fun e => e.2) (mkCounts rows)

/-- The `top_authors` slice `make_author_list` writes out. -/
def make_author_list_top (rows : List OpenAlexRow) (top_n : ℕ) : List (String × ℕ) :=
  (make_author_list_ranked rows).take top_n

/-- Decimal rendering of a natural, as Python `str` writes an `int`. -/
def natStr (n : ℕ) : String :=
  if n = 0 then "0" else ⟨((Nat.digits 10 n).reverse.map Nat.digitChar)⟩

/-- The value of a decimal digit character. -/
def charDigitVal (c : Char) : ℕ := c.toNat - 48

/-- Python `int(s)` on a CSV cell, as `read_author_list` calls it: the parsed
natural, or `none` for the raised `ValueError`. -/
def strToNat? (s : String) : Option ℕ :=
  if s = "" then none
  else if s.toList.all Char.isDigit then
    some (Nat.ofDigits 10 ((s.toList.map charDigitVal).reverse))
  else none

/-- The CSV rows `make_author_list` writes for a ranked `top_authors` list:
the fixed header, then `[rank, author_name, count]` with ranks from 1. -/
def makeAuthorListCsv (tops : List (String × ℕ)) : List (List String) :=
  ["Rank", "Author Name", "Paper Count"] ::
    (tops.enumFrom 1).map fun e => [natStr e.1, e.2.1, natStr e.2.2]

/-- One record `read_author_list` builds from a CSV row. -/
structure AuthorRec where
  rank : ℕ
  name : String
  paper_count : ℕ
deriving DecidableEq

/-- `read_author_list(csv_file)`: a `csv.DictReader` keyed by the header row;
each body row yields `{rank, name, paper_count}` with the two counts parsed by
`int`; `none` models a raised exception (missing column or bad number). -/
def read_author_list (csvRows : List (List String)) : Option (List AuthorRec) :=
  match csvRows with
  | [] => some []
  | header :: body =>
    body.mapM fun fields => do
      let rs ← fields.get? (header.indexOf "Rank")
      let r ← strToNat? rs
      let nm ← fields.get? (header.indexOf "Author Name")
      let cs ← fields.get? (header.indexOf "Paper Count")
      let c ← strToNat? cs
      pure (⟨r, nm, c⟩ : AuthorRec)

/-! ## Website ranking export (`get_author_rankings` of `export_rankings.py`) -/

/-- The per-author dict entry of `get_author_rankings`. -/
structure GARStat where
  papers : ℕ
  citations : ℕ
  latest_date : String
  latest_title : Option String
  papers_by_year : List (ℕ × ℕ)
deriving DecidableEq

/-- The `papers_by_year` dict update. -/
def yearBump (ys : List (ℕ × ℕ)) (y : ℕ) : List (ℕ × ℕ) :=
  match ys with
  | [] => [(y, 1)]
  | e :: rest => if e.1 = y then (e.1, e.2 + 1) :: rest else e :: yearBump rest y

/-- `int(pub_date.split('-')[0])` guarded by the date's truthiness, with the
`except` clause leaving the year unset. -/
def paperYear : Option String → Option ℕ
  | none => none
  | some pd => if pd = "" then none else strToNat? ((pySplitOnChar '-' pd).headD "")

/-- The fresh entry `get_author_rankings` creates for a first-seen author. -/
def garFresh : GARStat := ⟨0, 0, "", none, []⟩

/-- One author occurrence applied to a `get_author_rankings` entry: add the
paper and its citations, bump the year bucket, and move the latest paper
forward when the row's date is truthy and later (or no date is held yet). -/
def garUpdate (s : GARStat) (cit : ℕ) (py : Option ℕ) (pd t : Option String) :
    GARStat :=
  let s1 : GARStat := { s with papers := s.papers + 1, citations := s.citations + cit }
  let s2 : GARStat :=
    match py with
    | none => s1
    | some y => { s1 with papers_by_year := yearBump s1.papers_by_year y }
  match pd with
  | some p =>
    if decide (p ≠ "") && (decide (s2.latest_date = "") || strLtB s2.latest_date p) then
      { s2 with latest_date := p, latest_title := t }
    else s2
  | none => s2

/-- Apply one author occurrence to the insertion-ordered `authors_data` dict. -/
def garBump (stats : List (String × GARStat)) (name : String) (cit : ℕ)
    (py : Option ℕ) (pd t : Option String) : List (String × GARStat) :=
  match stats with
  | [] => [(name, garUpdate garFresh cit py pd t)]
  | e :: rest =>
    if e.1 = name then (e.1, garUpdate e.2 cit py pd t) :: rest
    else e :: garBump rest name cit py pd t

/-- The author loop of `get_author_rankings` over one row. -/
def garProcessAuthors (stats : List (String × GARStat)) (authors : List AuthorEntry)
    (cit : ℕ) (py : Option ℕ) (pd t : Option String) : List (String × GARStat) :=
  authors.foldl
    (fun st au =>
      match au.name with
      | none => st
      | some nm => if nm = "" then st else garBump st nm cit py pd t)
    stats

/-- The `authors_data` dict of `get_author_rankings` over every article row of
the selected databases. -/
def garStats (rows : List OpenAlexRow) : List (String × GARStat) :=
  rows.foldl
    (fun st r =>
      garProcessAuthors st r.authors_json (r.cited_by_count.getD 0)
        (paperYear r.publication_date) r.publication_date r.title)
    []

/-- The paper count `get_author_rankings` holds for a name (0 when absent). -/
def garPapersOf (stats : List (String × GARStat)) (name : String) : ℕ :=
  match stats with
  | [] => 0
  | e :: rest => if e.1 = name then e.2.papers else garPapersOf rest name

/-- One exported ranking entry. -/
structure GAREntry where
  author : String
  papers : ℕ
  citations : ℕ
  latest_paper : String
  latest_date : String
  years : List (ℕ × ℕ)
deriving DecidableEq

/-- The dict-to-entry conversion of `get_author_rankings` (the latest title is
truncated to 100 characters, a falsy one becomes the empty string). -/
def garEntry (e : String × GARStat) : GAREntry :=
  { author := e.1
    papers := e.2.papers
    citations := e.2.citations
    latest_paper :=
      match e.2.latest_title with
      | none => ""
      | some t => if t = "" then "" else t.take 100
    latest_date := e.2.latest_date
    years := e.2.papers_by_year }

/-- `get_author_rankings`: entries sorted by
`key=lambda x: (x['Papers'], x['Citations']), reverse=True`, cut to `top_n`. -/
def get_author_rankings (rows : List OpenAlexRow) (top_n : ℕ) : List GAREntry :=
  (pySortDesc lexLtB (fun e => (e.papers, e.citations))
    ((garStats rows).map garEntry)).take top_n

/-! ## Keyword fallback classifier (`extract_research_agendas.py`) -/

/-- A paper as `get_author_papers` returns it (missing text fields already
defaulted to the empty string). -/
structure APaper where
  title : String
  abstract : String
  publication_date : String
  cited_by_count : ℕ
deriving DecidableEq

/-- The static keyword-to-theme table of `fallback_research_agenda`, in its
source order. -/
def agendas : List (String × List String) :=
  [("Asset Pricing and Returns",
    ["return", "risk premium", "asset pricing", "equity premium", "expected return", "factor"]),
   ("Corporate Finance and Investment",
    ["corporate", "firm", "investment", "capital structure", "dividend", "financing"]),
   ("Banking and Credit Markets",
    ["bank", "credit", "loan", "lending", "financial institution"]),
   ("ESG and Climate Finance",
    ["esg", "climate", "green", "sustainable", "environmental", "carbon"]),
   ("Market Microstructure and Trading",
    ["liquidity", "trading", "market microstructure", "bid", "spread", "high frequency"]),
   ("Behavioral Finance",
    ["investor sentiment", "behavioral", "bias", "retail investor", "attention"]),
   ("Fintech and Innovation",
    ["fintech", "technology", "digital", "blockchain", "crypto", "innovation"]),
   ("International Finance",
    ["international", "exchange rate", "currency", "global", "cross country"]),
   ("Household Finance",
    ["household", "consumer", "mortgage", "retirement", "saving", "personal finance"]),
   ("Derivatives and Options",
    ["option", "derivative", "volatility", "futures", "hedging"]),
   ("Monetary Policy and Macro",
    ["monetary policy", "federal reserve", "interest rate", "inflation", "central bank"]),
   ("Private Equity and VC",
    ["private equity", "venture capital", "startup", "ipo", "vc"]),
   ("Real Estate Finance",
    ["real estate", "housing", "property", "mortgage market"]),
   ("Risk Management",
    ["risk management", "systemic risk", "financial stability", "regulation"])]

/-- `' '.flatten([p['title'] + ' ' + p['abstract'] for p in papers]).lower()`. -/
def agendaText (papers : List APaper) : String :=
  pyLower (String.intercalate " " (papers.map fun p => p.title ++ " " ++ p.abstract))

/-- `sum(1 for kw in keywords if kw in text)`. -/
def agendaScore (text : String) (kws : List String) : ℕ :=
  kws.countP fun kw => pyIn kw text

/-- The positive-score entries of the `scores` dict, in table order. -/
def agendaScores (text : String) : List (String × ℕ) :=
  agendas.filterMap fun a =>
    let s := agendaScore text a.2
    if 0 < s then some (a.1, s) else none

/-- `fallback_research_agenda(papers)`: score each theme over the concatenated
lowercased titles and abstracts, return `max(scores.items(), key=...)` when
some theme scored, else the default label. -/
def fallback_research_agenda (papers : List APaper) : String :=
  match agendaScores (agendaText papers) with
  | [] => "Finance Research"
  | h :: t => (pyMaxBySnd h t).1

/-- The maximal keyword-match score any theme achieves over a text. -/
def maxAgendaScore (text : String) : ℕ :=
  (agendas.map fun a => agendaScore text a.2).foldl Nat.max 0

/-! ## Concrete fixtures used by witnesses and counterexamples -/

/-- A snapshot with one article row whose stored author list holds the same
name twice. -/
def dupAuthorRows : List OpenAlexRow :=
  [{ openalex_id := "W1"
     title := some "Paper one"
     publication_date := some "2024-01-02"
     doi := none
     cited_by_count := some 2
     authors_json := [⟨some "Ada Smith", none, []⟩, ⟨some "Ada Smith", none, []⟩]
     scraped_at := "t0" }]

/-- A snapshot with two article rows whose author lists are duplicate-free. -/
def nodupAuthorRows : List OpenAlexRow :=
  [{ openalex_id := "W1"
     title := some "Paper one"
     publication_date := some "2024-01-02"
     doi := none
     cited_by_count := some 2
     authors_json := [⟨some "Ada Smith", none, []⟩, ⟨some "Bo Li", none, []⟩]
     scraped_at := "t0" },
   { openalex_id := "W2"
     title := some "Paper two"
     publication_date := some "2024-03-04"
     doi := none
     cited_by_count := some 7
     authors_json := [⟨some "Ada Smith", none, []⟩]
     scraped_at := "t0" }]

/-- A snapshot with two single-author rows: the first-seen author has the
smaller citation total, both have one paper. -/
def tieBreakRows : List OpenAlexRow :=
  [{ openalex_id := "W1"
     title := none
     publication_date := none
     doi := none
     cited_by_count := some 0
     authors_json := [⟨some "Xi Chen", none, []⟩]
     scraped_at := "t0" },
   { openalex_id := "W2"
     title := none
     publication_date := none
     doi := none
     cited_by_count := some 5
     authors_json := [⟨some "Yuri Orlov", none, []⟩]
     scraped_at := "t0" }]

/-- Two journal-article works on two cursor-linked pages. -/
def pageWork1 : Work := ⟨"W101", some "First", none, none, some 1, []⟩

def pageWork2 : Work := ⟨"W102", some "Second", none, none, some 2, []⟩

def twoArticlePages : List (PageOf Work) :=
  [⟨[pageWork1], some "cursor2"⟩, ⟨[pageWork2], none⟩]

/-- Two working-paper works on two cursor-linked pages. -/
def wpWork1 : WpWork := ⟨"W201", some "WP one", none, none, some "report", some "SSRN", some 3⟩

def wpWork2 : WpWork := ⟨"W202", some "WP two", none, none, some "report", some "SSRN", some 4⟩

def twoWpPages : List (PageOf WpWork) :=
  [⟨[wpWork1], some "cursor2"⟩, ⟨[wpWork2], none⟩]

/-- A paper list whose text matches at least one theme keyword. -/
def bankPapers : List APaper :=
  [⟨"Bank credit and loan supply", "Evidence on lending.", "2024-01-01", 0⟩]

/-! ## Lemmas about the stable descending sort -/

theorem mem_insDesc {κ α : Type} (lt : κ → κ → Bool) (key : α → κ) (a x : α)
    (l : List α) (h : x ∈ insDesc lt key a l) : x = a ∨ x ∈ l := by
  induction l with
  | nil => simpa [insDesc] using h
  | cons b t ih =>
    rw [insDesc] at h
    by_cases hlt : lt (key a) (key b)
    · rw [if_pos hlt] at h
      rcases List.mem_cons.mp h with rfl | h
      · right; exact List.mem_cons_self _ _
      · rcases ih h with h | h
        · left; exact h
        · right; exact List.mem_cons_of_mem _ h
    · rw [if_neg hlt] at h
      rcases List.mem_cons.mp h with rfl | h
      · left; rfl
      · right; exact h

theorem insDesc_pairwise {κ α : Type} (lt : κ → κ → Bool) (key : α → κ)
    (hT : ∀ x y z : κ, lt x y = false → lt y z = false → lt x z = false)
    (hA : ∀ x y : κ, lt x y = true → lt y x = false)
    (a : α) (l : List α)
    (hl : l.Pairwise fun x y => lt (key x) (key y) = false) :
    (insDesc lt key a l).Pairwise fun x y => lt (key x) (key y) = false := by
  induction l with
  | nil => simp [insDesc]
  | cons b t ih =>
    rcases List.pairwise_cons.mp hl with ⟨hb, ht⟩
    rw [insDesc]
    by_cases hlt : lt (key a) (key b)
    · rw [if_pos hlt]
      refine List.pairwise_cons.mpr ⟨?_, ih ht⟩
      intro x hx
      rcases mem_insDesc lt key a x t hx with rfl | hx
      · exact hA _ _ hlt
      · exact hb x hx
    · rw [if_neg hlt]
      refine List.pairwise_cons.mpr ⟨?_, hl⟩
      intro x hx
      rcases List.mem_cons.mp hx with rfl | hx
      · exact Bool.eq_false_iff.mpr hlt
      · exact hT _ _ _ (Bool.eq_false_iff.mpr hlt) (hb x hx)

theorem pySortDesc_pairwise {κ α : Type} (lt : κ → κ → Bool) (key : α → κ)
    (hT : ∀ x y z : κ, lt x y = false → lt y z = false → lt x z = false)
    (hA : ∀ x y : κ, lt x y = true → lt y x = false)
    (l : List α) :
    (pySortDesc lt key l).Pairwise fun x y => lt (key x) (key y) = false := by
  induction l with
  | nil => simp [pySortDesc]
  | cons a t ih => exact insDesc_pairwise lt key hT hA a _ ih

theorem natLtB_trans_false (x y z : ℕ) (h1 : natLtB x y = false)
    (h2 : natLtB y z = false) : natLtB x z = false := by
  simp only [natLtB, decide_eq_false_iff_not, Nat.not_lt] at h1 h2 ⊢
  omega

theorem natLtB_asymm (x y : ℕ) (h : natLtB x y = true) : natLtB y x = false := by
  simp only [natLtB, decide_eq_true_eq, decide_eq_false_iff_not, Nat.not_lt] at h ⊢
  omega

theorem lexLtB_trans_false (x y z : ℕ × ℕ) (h1 : lexLtB x y = false)
    (h2 : lexLtB y z = false) : lexLtB x z = false := by
  simp only [lexLtB, Bool.or_eq_false_iff, Bool.and_eq_false_iff,
    decide_eq_false_iff_not, Nat.not_lt] at h1 h2 ⊢
  omega

theorem lexLtB_asymm (x y : ℕ × ℕ) (h : lexLtB x y = true) : lexLtB y x = false := by
  simp only [lexLtB, Bool.or_eq_true, Bool.and_eq_true, decide_eq_true_eq,
    Bool.or_eq_false_iff, Bool.and_eq_false_iff, decide_eq_false_iff_not,
    Nat.not_lt] at h ⊢
  omega

/-! ## Lemmas about `pyMaxBySnd` and maxima -/

theorem mem_pyMaxBySnd {α : Type} (h : α × ℕ) (l : List (α × ℕ)) :
    pyMaxBySnd h l ∈ h :: l := by
  induction l generalizing h with
  | nil => simp [pyMaxBySnd]
  | cons x t ih =>
    rw [pyMaxBySnd]
    by_cases hc : h.2 < x.2
    · rw [if_pos hc]
      rcases List.mem_cons.mp (ih x) with h' | h'
      · rw [h']; exact List.mem_cons_of_mem _ (List.mem_cons_self _ _)
      · exact List.mem_cons_of_mem _ (List.mem_cons_of_mem _ h')
    · rw [if_neg hc]
      rcases List.mem_cons.mp (ih h) with h' | h'
      · rw [h']; exact List.mem_cons_self _ _
      · exact List.mem_cons_of_mem _ (List.mem_cons_of_mem _ h')

theorem pyMaxBySnd_le {α : Type} (h : α × ℕ) (l : List (α × ℕ)) :
    ∀ x ∈ h :: l, x.2 ≤ (pyMaxBySnd h l).2 := by
  induction l generalizing h with
  | nil =>
    intro x hx
    rcases List.mem_cons.mp hx with rfl | hx
    · exact le_refl _
    · simp at hx
  | cons y t ih =>
    intro x hx
    rw [pyMaxBySnd]
    have hh : h.2 ≤ (if h.2 < y.2 then y else h).2 := by
      by_cases hc : h.2 < y.2
      · rw [if_pos hc]; exact le_of_lt hc
      · rw [if_neg hc]
    have hy : y.2 ≤ (if h.2 < y.2 then y else h).2 := by
      by_cases hc : h.2 < y.2
      · rw [if_pos hc]
      · rw [if_neg hc]; exact Nat.le_of_not_lt hc
    have hmax := ih (if h.2 < y.2 then y else h)
    have htop : (if h.2 < y.2 then y else h).2 ≤
        (pyMaxBySnd (if h.2 < y.2 then y else h) t).2 :=
      hmax _ (List.mem_cons_self _ _)
    rcases List.mem_cons.mp hx with rfl | hx
    · exact le_trans hh htop
    · rcases List.mem_cons.mp hx with rfl | hx
      · exact le_trans hy htop
      · exact hmax x (List.mem_cons_of_mem _ hx)

theorem pyMaxBySnd_spec {α : Type} (l : List (α × ℕ)) (h : α × ℕ) :
    pyMaxBySnd h l = h ∨
    ∃ l₁ x l₂, l = l₁ ++ x :: l₂ ∧ pyMaxBySnd h l = x ∧
      ∀ y ∈ h :: l₁, y.2 < x.2 := by
  induction l generalizing h with
  | nil => left; rfl
  | cons x t ih =>
    rw [pyMaxBySnd]
    by_cases hc : h.2 < x.2
    · rw [if_pos hc]
      rcases ih x with h' | ⟨t₁, z, t₂, hsplit, hres, hlt⟩
      · right
        refine ⟨[], x, t, rfl, h', ?_⟩
        intro y hy
        rcases List.mem_cons.mp hy with rfl | hy
        · exact h'.symm ▸ hc
        · simp at hy
      · right
        refine ⟨x :: t₁, z, t₂, by rw [hsplit]; rfl, hres, ?_⟩
        intro y hy
        rcases List.mem_cons.mp hy with rfl | hy
        · exact lt_trans hc (hlt x (List.mem_cons_self _ _))
        · exact hlt y hy
    · rw [if_neg hc]
      rcases ih h with h' | ⟨t₁, z, t₂, hsplit, hres, hlt⟩
      · left; exact h'
      · right
        refine ⟨x :: t₁, z, t₂, by rw [hsplit]; rfl, hres, ?_⟩
        intro y hy
        rcases List.mem_cons.mp hy with rfl | hy
        · exact hlt y (List.mem_cons_self _ _)
        · rcases List.mem_cons.mp hy with rfl | hy
          · exact lt_of_le_of_lt (Nat.le_of_not_lt hc) (hlt h (List.mem_cons_self _ _))
          · exact hlt y (List.mem_cons_of_mem _ hy)

theorem find?_split {α : Type} (p : α → Bool) (pre : List α) (x : α) (post : List α)
    (hpre : ∀ y ∈ pre, p y = false) (hx : p x = true) :
    (pre ++ x :: post).find? p = some x := by
  induction pre with
  | nil => simp [List.find?, hx]
  | cons a t ih =>
    have ha : p a = false := hpre a (List.mem_cons_self _ _)
    simp only [List.cons_append, List.find?, ha]
    exact ih fun y hy => hpre y (List.mem_cons_of_mem _ hy)

theorem init_le_foldl_max (l : List ℕ) (i : ℕ) : i ≤ l.foldl Nat.max i := by
  induction l generalizing i with
  | nil => exact le_refl _
  | cons a t ih => exact le_trans (Nat.le_max_left i a) (ih _)

theorem le_foldl_max (l : List ℕ) (i x : ℕ) (hx : x ∈ l) : x ≤ l.foldl Nat.max i := by
  induction l generalizing i with
  | nil => simp at hx
  | cons a t ih =>
    rcases List.mem_cons.mp hx with rfl | hx
    · calc x ≤ Nat.max i x := Nat.le_max_right _ _
        _ ≤ t.foldl Nat.max (Nat.max i x) := init_le_foldl_max t _
    · exact ih _ hx

theorem foldl_max_eq_init_or_mem (l : List ℕ) (i : ℕ) :
    l.foldl Nat.max i = i ∨ l.foldl Nat.max i ∈ l := by
  induction l generalizing i with
  | nil => left; rfl
  | cons a t ih =>
    rcases ih (Nat.max i a) with h | h
    · rcases Nat.le_total a i with hai | hia
      · have hm : Nat.max i a = i := Nat.max_eq_left hai
        left; rw [List.foldl_cons, h, hm]
      · have hm : Nat.max i a = a := Nat.max_eq_right hia
        right
        rw [List.foldl_cons, h, hm]
        exact List.mem_cons_self _ _
    · right; exact List.mem_cons_of_mem _ h

/-! ## Lemmas about the keyword classifier -/

theorem mem_agendaScores (text : String) (e : String × ℕ) :
    e ∈ agendaScores text ↔
      ∃ a ∈ agendas, 0 < agendaScore text a.2 ∧ e = (a.1, agendaScore text a.2) := by
  simp only [agendaScores, List.mem_filterMap]
  constructor
  · rintro ⟨a, ha, hfa⟩
    by_cases hs : 0 < agendaScore text a.2
    · rw [if_pos hs] at hfa
      exact ⟨a, ha, hs, (Option.some.inj hfa).symm⟩
    · rw [if_neg hs] at hfa
      exact absurd hfa (by simp)
  · rintro ⟨a, ha, hs, rfl⟩
    exact ⟨a, ha, by rw [if_pos hs]⟩

theorem agendaScores_le_max (text : String) (e : String × ℕ)
    (he : e ∈ agendaScores text) : e.2 ≤ maxAgendaScore text := by
  rcases (mem_agendaScores text e).mp he with ⟨a, ha, _, rfl⟩
  exact le_foldl_max _ 0 _ (List.mem_map_of_mem (fun a => agendaScore text a.2) ha)

theorem max_mem_agendaScores (text : String) (hpos : 0 < maxAgendaScore text) :
    ∃ e ∈ agendaScores text, e.2 = maxAgendaScore text := by
  rcases foldl_max_eq_init_or_mem (agendas.map fun a => agendaScore text a.2) 0 with h | h
  · rw [maxAgendaScore] at hpos
    omega
  · rcases List.mem_map.mp h with ⟨a, ha, hsc⟩
    refine ⟨(a.1, agendaScore text a.2), ?_, hsc⟩
    refine (mem_agendaScores text _).mpr ⟨a, ha, ?_, rfl⟩
    rw [maxAgendaScore] at hpos
    rw [hsc]
    exact hpos

theorem find?_filterMap_scores (text : String) (M : ℕ) (hM : M ≠ 0)
    (l : List (String × List String)) :
    (l.filterMap fun a =>
        let s := agendaScore text a.2
        if 0 < s then some (a.1, s) else none).find?
      (fun e => decide (e.2 = M)) =
      (l.find? fun a => decide (agendaScore text a.2 = M)).map
        (fun a => (a.1, agendaScore text a.2)) := by
  induction l with
  | nil => rfl
  | cons a t ih =>
    simp only [List.filterMap_cons]
    by_cases hs : 0 < agendaScore text a.2
    · rw [if_pos hs]
      by_cases hEq : agendaScore text a.2 = M
      · rw [List.find?_cons_of_pos _ (by simpa using hEq),
          List.find?_cons_of_pos _ (by simpa using hEq)]
        simp
      · rw [List.find?_cons_of_neg _ (by simpa using hEq),
          List.find?_cons_of_neg _ (by simpa using hEq)]
        exact ih
    · rw [if_neg hs]
      have hEq : agendaScore text a.2 ≠ M := by omega
      rw [List.find?_cons_of_neg _ (by simpa using hEq)]
      exact ih

/-- C7. The claim says the tie goes to the earliest theme of the static
dictionary whenever two or more themes achieve the same maximal score. When no
keyword matches, all fourteen themes tie at the maximal score 0, yet the
function returns the default label "Finance Research", which is not a theme of
the dictionary at all — so the claim fails at that input. -/
theorem c7_counterexample :
    fallback_research_agenda [] = "Finance Research"
    ∧ (∀ a ∈ agendas, agendaScore (agendaText []) a.2 = 0)
    ∧ "Finance Research" ∉ agendas.map Prod.fst := by
  refine ⟨rfl, by decide, by decide⟩

/-- C7 (amended). Whenever some theme achieves a positive score, the label
`fallback_research_agenda` returns is exactly the first theme of the static
dictionary achieving the maximal keyword-match score: ties at the (positive)
maximum go to the theme appearing earliest in the dictionary. -/
theorem c7_amended (papers : List APaper)
    (hpos : 0 < maxAgendaScore (agendaText papers)) :
    (agendas.find? fun a =>
        decide (agendaScore (agendaText papers) a.2 = maxAgendaScore (agendaText papers))).map
      Prod.fst = some (fallback_research_agenda papers) := by
  rcases max_mem_agendaScores (agendaText papers) hpos with ⟨e, he, heM⟩
  rcases hsc : agendaScores (agendaText papers) with _ | ⟨h, t⟩
  · rw [hsc] at he
    simp at he
  · have hres : fallback_research_agenda papers = (pyMaxBySnd h t).1 := by
      rw [fallback_research_agenda, hsc]
    have hmem : pyMaxBySnd h t ∈ agendaScores (agendaText papers) := by
      rw [hsc]; exact mem_pyMaxBySnd h t
    have hle : (pyMaxBySnd h t).2 ≤ maxAgendaScore (agendaText papers) :=
      agendaScores_le_max _ _ hmem
    have hge : maxAgendaScore (agendaText papers) ≤ (pyMaxBySnd h t).2 := by
      rw [← heM]
      refine pyMaxBySnd_le h t e ?_
      rw [← hsc]
      exact he
    have hM2 : (pyMaxBySnd h t).2 = maxAgendaScore (agendaText papers) :=
      le_antisymm hle hge
    have hfind : (agendaScores (agendaText papers)).find?
        (fun e => decide (e.2 = maxAgendaScore (agendaText papers))) =
        some (pyMaxBySnd h t) := by
      rw [hsc]
      rcases pyMaxBySnd_spec t h with hcase | ⟨l₁, x, l₂, hsplit, hresx, hlt⟩
      · rw [hcase]
        rw [hcase] at hM2
        exact List.find?_cons_of_pos _ (by simpa using hM2)
      · rw [hresx]
        rw [hresx] at hM2
        have hall : h :: t = (h :: l₁) ++ x :: l₂ := by rw [hsplit]; rfl
        rw [hall]
        refine find?_split _ _ _ _ ?_ (by simpa using hM2)
        intro y hy
        have := hlt y hy
        simp only [decide_eq_false_iff_not]
        omega
    have hM0 : maxAgendaScore (agendaText papers) ≠ 0 := by omega
    have hbridge := find?_filterMap_scores (agendaText papers)
      (maxAgendaScore (agendaText papers)) hM0 agendas
    rw [← agendaScores] at hbridge
    rw [hbridge] at hfind
    rcases hF : agendas.find? fun a =>
        decide (agendaScore (agendaText papers) a.2 = maxAgendaScore (agendaText papers))
      with _ | a
    · rw [hF] at hfind
      simp at hfind
    · rw [hF] at hfind
      rw [hF]
      simp only [Option.map_some'] at hfind ⊢
      rw [hres, ← Option.some.inj hfind]

theorem c7_witness :
    (agendas.find? fun a =>
        decide (agendaScore (agendaText bankPapers) a.2 =
          maxAgendaScore (agendaText bankPapers))).map
      Prod.fst = some (fallback_research_agenda bankPapers) :=
  c7_amended bankPapers (by decide)

/-- C8. The keyword-theme classification is deterministic: on equal inputs
(the same list of papers, hence the same fixed keyword table),
`fallback_research_agenda` returns the same label. -/
theorem c8_deterministic (p q : List APaper) (h : p = q) :
    fallback_research_agenda p = fallback_research_agenda q := by
  rw [h]

theorem c8_witness :
    fallback_research_agenda bankPapers = fallback_research_agenda bankPapers :=
  c8_deterministic bankPapers bankPapers rfl

/-- C10. When no keyword of any theme occurs in the concatenated lowercased
titles and abstracts, `fallback_research_agenda` returns the default label
"Finance Research"; and on every input it returns a non-empty string (the
embedding is a total function, so no exception escapes). -/
theorem c10_default_label (papers : List APaper) :
    ((∀ a ∈ agendas, ∀ kw ∈ a.2, pyIn kw (agendaText papers) = false) →
      fallback_research_agenda papers = "Finance Research")
    ∧ fallback_research_agenda papers ≠ "" := by
  constructor
  · intro hnone
    have hsc : agendaScores (agendaText papers) = [] := by
      rw [agendaScores, List.filterMap_eq_nil_iff]
      intro a ha
      have hz : agendaScore (agendaText papers) a.2 = 0 := by
        rw [agendaScore, List.countP_eq_zero]
        intro kw hkw
        simp [hnone a ha kw hkw]
      simp [hz]
    rw [fallback_research_agenda, hsc]
  · rcases hsc : agendaScores (agendaText papers) with _ | ⟨h, t⟩
    · rw [fallback_research_agenda, hsc]
      decide
    · rw [fallback_research_agenda, hsc]
      show (pyMaxBySnd h t).1 ≠ ""
      have hmem : pyMaxBySnd h t ∈ agendaScores (agendaText papers) := by
        rw [hsc]; exact mem_pyMaxBySnd h t
      rcases (mem_agendaScores _ _).mp hmem with ⟨a, ha, _, hEq⟩
      have hne : ∀ b ∈ agendas, b.1 ≠ "" := by decide
      rw [hEq]
      exact hne a ha

/-! ## Lemmas about the insert-or-skip loop -/

theorem insertOrSkip_prefix {ρ ι : Type} (dup : List ρ → ι → Bool) (mk : ι → ρ) :
    ∀ (items : List ι) (db : List ρ) (n d : ℕ),
      db <+: (insertOrSkip dup mk db items n d).1 := by
  intro items
  induction items with
  | nil => intro db n d; exact List.prefix_refl _
  | cons i rest ih =>
    intro db n d
    rw [insertOrSkip]
    by_cases hc : dup db i
    · rw [if_pos hc]; exact ih db n (d + 1)
    · rw [if_neg hc]
      exact List.IsPrefix.trans (List.prefix_append db [mk i]) (ih _ (n + 1) d)

theorem insertOrSkip_dup_preserved {ρ ι : Type} (dup : List ρ → ι → Bool) (mk : ι → ρ)
    (H1 : ∀ (db l : List ρ) (i : ι), dup db i = true → dup (db ++ l) i = true)
    (items : List ι) (db : List ρ) (n d : ℕ) (i : ι) (h : dup db i = true) :
    dup (insertOrSkip dup mk db items n d).1 i = true := by
  obtain ⟨t, ht⟩ := insertOrSkip_prefix dup mk items db n d
  rw [← ht]
  exact H1 db t i h

theorem insertOrSkip_key {ρ ι : Type} (dup : List ρ → ι → Bool) (mk : ι → ρ)
    (H1 : ∀ (db l : List ρ) (i : ι), dup db i = true → dup (db ++ l) i = true)
    (Hself : ∀ (db : List ρ) (i : ι), dup (db ++ [mk i]) i = true) :
    ∀ (items : List ι) (db : List ρ) (n d : ℕ) (i : ι), i ∈ items →
      dup (insertOrSkip dup mk db items n d).1 i = true := by
  intro items
  induction items with
  | nil => intro db n d i hi; simp at hi
  | cons j rest ih =>
    intro db n d i hi
    rw [insertOrSkip]
    by_cases hc : dup db j
    · rw [if_pos hc]
      rcases List.mem_cons.mp hi with rfl | hi
      · exact insertOrSkip_dup_preserved dup mk H1 rest db n (d + 1) i hc
      · exact ih db n (d + 1) i hi
    · rw [if_neg hc]
      rcases List.mem_cons.mp hi with rfl | hi
      · exact insertOrSkip_dup_preserved dup mk H1 rest _ (n + 1) d i (Hself db i)
      · exact ih _ (n + 1) d i hi

theorem insertOrSkip_all_dup {ρ ι : Type} (dup : List ρ → ι → Bool) (mk : ι → ρ) :
    ∀ (items : List ι) (db : List ρ) (n d : ℕ),
      (∀ i ∈ items, dup db i = true) →
      insertOrSkip dup mk db items n d = (db, n, d + items.length) := by
  intro items
  induction items with
  | nil => intro db n d _; rw [insertOrSkip]; rfl
  | cons i rest ih =>
    intro db n d hall
    rw [insertOrSkip, if_pos (hall i (List.mem_cons_self _ _))]
    rw [ih db n (d + 1) fun j hj => hall j (List.mem_cons_of_mem _ hj)]
    simp only [List.length_cons]
    have h3 : d + 1 + rest.length = d + (rest.length + 1) := by omega
    rw [h3]

theorem insertOrSkip_mem {ρ ι : Type} (dup : List ρ → ι → Bool) (mk : ι → ρ)
    (rowPred : List ρ → ρ → Bool)
    (HrowMono : ∀ (db l : List ρ) (r : ρ), rowPred db r = true → rowPred (db ++ l) r = true)
    (Hrow : ∀ (db : List ρ) (i : ι), dup db i = false → rowPred db (mk i) = false) :
    ∀ (items : List ι) (db : List ρ) (n d : ℕ) (r : ρ),
      r ∈ (insertOrSkip dup mk db items n d).1 →
      r ∈ db ∨ rowPred db r = false := by
  intro items
  induction items with
  | nil => intro db n d r hr; left; exact hr
  | cons i rest ih =>
    intro db n d r hr
    rw [insertOrSkip] at hr
    by_cases hc : dup db i
    · rw [if_pos hc] at hr
      exact ih db n (d + 1) r hr
    · rw [if_neg hc] at hr
      have hcf : dup db i = false := Bool.eq_false_iff.mpr hc
      rcases ih _ (n + 1) d r hr with hmem | hkey
      · rcases List.mem_append.mp hmem with h | h
        · left; exact h
        · right
          have hri : r = mk i := by simpa using h
          rw [hri]
          exact Hrow db i hcf
      · right
        by_cases hp : rowPred db r
        · exact absurd (HrowMono db [mk i] r hp) (Bool.eq_false_iff.mp hkey)
        · exact Bool.eq_false_iff.mpr hp

/-! ## Monotonicity of the duplicate checks -/

theorem hasOpenalexId_append (db l : List OpenAlexRow) (k : String)
    (h : hasOpenalexId db k = true) : hasOpenalexId (db ++ l) k = true := by
  rw [hasOpenalexId, List.any_append]
  rw [hasOpenalexId] at h
  rw [h, Bool.true_or]

theorem hasOpenalexId_self (db : List OpenAlexRow) (a : Article) (now : String) :
    hasOpenalexId (db ++ [rowOfArticle a now]) a.id = true := by
  rw [hasOpenalexId, List.any_append]
  simp [rowOfArticle]

theorem hasWpOpenalexId_append (db l : List WpRow) (k : String)
    (h : hasWpOpenalexId db k = true) : hasWpOpenalexId (db ++ l) k = true := by
  rw [hasWpOpenalexId, List.any_append]
  rw [hasWpOpenalexId] at h
  rw [h, Bool.true_or]

theorem hasWpOpenalexId_self (db : List WpRow) (p : WpPaper) (now : String) :
    hasWpOpenalexId (db ++ [rowOfWpPaper p now]) p.openalex_id = true := by
  rw [hasWpOpenalexId, List.any_append]
  simp [rowOfWpPaper]

theorem saLinkFound_append (db l : List SARow) (jl s : String)
    (h : saLinkFound db jl s = true) : saLinkFound (db ++ l) jl s = true := by
  rw [saLinkFound, List.any_append]
  rw [saLinkFound] at h
  rw [h, Bool.true_or]

theorem saTitleFound_append (db l : List SARow) (jl s : String)
    (h : saTitleFound db jl s = true) : saTitleFound (db ++ l) jl s = true := by
  rw [saTitleFound, List.any_append]
  rw [saTitleFound] at h
  rw [h, Bool.true_or]

theorem saRowMatched_append (db l : List SARow) (jl : String) (r : SARow)
    (h : saRowMatched db jl r = true) : saRowMatched (db ++ l) jl r = true := by
  rw [saRowMatched] at h ⊢
  rcases Bool.or_eq_true_iff.mp h with h1 | h2
  · refine Bool.or_eq_true_iff.mpr (Or.inl ?_)
    rcases hl : r.article_link with _ | s
    · rw [hl] at h1; exact h1
    · rw [hl] at h1
      rcases Bool.and_eq_true_iff.mp h1 with ⟨hne, hf⟩
      exact Bool.and_eq_true_iff.mpr ⟨hne, saLinkFound_append db l jl s hf⟩
  · refine Bool.or_eq_true_iff.mpr (Or.inr ?_)
    rcases Bool.and_eq_true_iff.mp h2 with ⟨hne, hf⟩
    exact Bool.and_eq_true_iff.mpr ⟨hne, saTitleFound_append db l jl _ hf⟩

theorem truthyS_getD (t : Option String) :
    truthyS t = decide (t.getD "" ≠ "") := by
  rcases t with _ | s
  · rfl
  · rfl

theorem isDupSA_eq_rowMatched (db : List SARow) (jl volume issue now : String)
    (a : SArticle) :
    isDupSA db jl a = saRowMatched db jl (rowOfSArticle jl volume issue now a) := by
  rw [isDupSA, saRowMatched]
  have hlink : (rowOfSArticle jl volume issue now a).article_link = linkOf jl a := rfl
  have htitle : (rowOfSArticle jl volume issue now a).title = a.title.getD "" := rfl
  rw [hlink, htitle, truthyS_getD]

/-! ## C2 and C3 -/

/-- C2. Insert-or-skip persistence is idempotent: running `save_to_db` (and
`save_working_papers_to_db`) a second time with the same articles inserts zero
new rows, skips them all as duplicates and leaves the table unchanged, so a
re-run against the same source data never increases the row count. -/
theorem c2_idempotent (db : List OpenAlexRow) (arts : List Article)
    (now now' : String) (wdb : List WpRow) (ps : List WpPaper) :
    save_to_db (save_to_db db arts now).1 arts now' =
      ((save_to_db db arts now).1, 0, arts.length)
    ∧ save_working_papers_to_db (save_working_papers_to_db wdb ps now).1 ps now' =
      ((save_working_papers_to_db wdb ps now).1, 0, ps.length) := by
  constructor
  · have hall : ∀ a ∈ arts, hasOpenalexId (save_to_db db arts now).1 a.id = true := by
      intro a ha
      exact insertOrSkip_key (fun db (a : Article) => hasOpenalexId db a.id)
        (fun a => rowOfArticle a now)
        (fun db l i h => hasOpenalexId_append db l i.id h)
        (fun db i => hasOpenalexId_self db i now)
        arts db 0 0 a ha
    calc save_to_db (save_to_db db arts now).1 arts now'
        = ((save_to_db db arts now).1, 0, 0 + arts.length) :=
          insertOrSkip_all_dup (fun db (a : Article) => hasOpenalexId db a.id)
            (fun a => rowOfArticle a now') arts (save_to_db db arts now).1 0 0 hall
      _ = ((save_to_db db arts now).1, 0, arts.length) := by rw [Nat.zero_add]
  · have hall : ∀ p ∈ ps,
        hasWpOpenalexId (save_working_papers_to_db wdb ps now).1 p.openalex_id = true := by
      intro p hp
      exact insertOrSkip_key (fun db (p : WpPaper) => hasWpOpenalexId db p.openalex_id)
        (fun p => rowOfWpPaper p now)
        (fun db l i h => hasWpOpenalexId_append db l i.openalex_id h)
        (fun db i => hasWpOpenalexId_self db i now)
        ps wdb 0 0 p hp
    calc save_working_papers_to_db (save_working_papers_to_db wdb ps now).1 ps now'
        = ((save_working_papers_to_db wdb ps now).1, 0, 0 + ps.length) :=
          insertOrSkip_all_dup (fun db (p : WpPaper) => hasWpOpenalexId db p.openalex_id)
            (fun p => rowOfWpPaper p now') ps (save_working_papers_to_db wdb ps now).1 0 0 hall
      _ = ((save_working_papers_to_db wdb ps now).1, 0, ps.length) := by rw [Nat.zero_add]

/-- C3. Duplicate-checked persistence is first-write-wins and never mutates
stored data: the stored table is a literal leading segment of the result (no
row deleted or changed, `cited_by_count` included), and every row the run adds
carries a natural key — `openalex_id` for `save_to_db`, link/title within the
journal for `save_articles_to_db` — that matched no stored row, so an incoming
article whose key matches an existing row contributes nothing. -/
theorem c3_first_write_wins (db : List OpenAlexRow) (arts : List Article)
    (now : String) (sdb : List SARow) (sarts : List SArticle)
    (journal volume issue snow : String) :
    db <+: (save_to_db db arts now).1
    ∧ (∀ r ∈ (save_to_db db arts now).1,
        r ∈ db ∨ hasOpenalexId db r.openalex_id = false)
    ∧ sdb <+: (save_articles_to_db sdb sarts journal volume issue snow).1
    ∧ (∀ r ∈ (save_articles_to_db sdb sarts journal volume issue snow).1,
        r ∈ sdb ∨ saRowMatched sdb (pyLower journal) r = false) := by
  refine ⟨?_, ?_, ?_, ?_⟩
  · exact insertOrSkip_prefix _ _ arts db 0 0
  · intro r hr
    refine insertOrSkip_mem _ _ (fun db r => hasOpenalexId db r.openalex_id)
      (fun db l r h => hasOpenalexId_append db l r.openalex_id h)
      (fun db a h => ?_) arts db 0 0 r hr
    exact h
  · exact insertOrSkip_prefix _ _ sarts sdb 0 0
  · intro r hr
    refine insertOrSkip_mem _ _ (fun db r => saRowMatched db (pyLower journal) r)
      (fun db l r h => saRowMatched_append db l (pyLower journal) r h)
      (fun db a h => ?_) sarts sdb 0 0 r hr
    show saRowMatched db (pyLower journal)
      (rowOfSArticle (pyLower journal) volume issue snow a) = false
    rw [← isDupSA_eq_rowMatched db (pyLower journal) volume issue snow a]
    exact h

/-! ## Counting lemmas for the ranking aggregations -/

theorem raUpdate_count (s : RAStat) (cit : ℕ) (pd t : Option String) :
    (raUpdate s cit pd t).count = s.count + 1 := by
  rcases pd with _ | p
  · rfl
  · rw [raUpdate]
    dsimp only
    split
    · rfl
    · rfl

theorem raCountOf_raBump (stats : List (String × RAStat)) (name : String)
    (cit : ℕ) (pd t : Option String) (m : String) :
    raCountOf (raBump stats name cit pd t) m =
      raCountOf stats m + (if name = m then 1 else 0) := by
  induction stats with
  | nil =>
    simp only [raBump, raCountOf]
    by_cases h : name = m
    · rw [if_pos h, if_pos h, raUpdate_count]
      rfl
    · rw [if_neg h, if_neg h]
  | cons e rest ih =>
    rw [raBump]
    by_cases he : e.1 = name
    · rw [if_pos he]
      simp only [raCountOf]
      by_cases hm : e.1 = m
      · have hnm : name = m := he ▸ hm
        rw [if_pos hm, if_pos hm, raUpdate_count, if_pos hnm]
      · have hnm : ¬ name = m := fun hx => hm (he.trans hx)
        rw [if_neg hm, if_neg hm, if_neg hnm, Nat.add_zero]
    · rw [if_neg he]
      simp only [raCountOf]
      by_cases hm : e.1 = m
      · have hnm : ¬ name = m := fun hx => he (hm.trans hx.symm)
        rw [if_pos hm, if_pos hm, if_neg hnm, Nat.add_zero]
      · rw [if_neg hm, if_neg hm]
        exact ih

theorem raCountOf_processAuthors (authors : List AuthorEntry)
    (stats : List (String × RAStat)) (cit : ℕ) (pd t : Option String) (m : String) :
    raCountOf (raProcessAuthors stats authors cit pd t) m =
      raCountOf stats m +
        (validNames authors).countP (fun s => decide (s = m)) := by
  induction authors generalizing stats with
  | nil =>
    rw [raProcessAuthors, List.foldl_nil, validNames, List.filterMap_nil,
      List.countP_nil, Nat.add_zero]
  | cons au rest ih =>
    rcases hn : au.name with _ | nm
    · rw [raProcessAuthors, List.foldl_cons, validNames, List.filterMap_cons]
      simp only [hn]
      have hih := ih stats
      rw [raProcessAuthors, validNames] at hih
      exact hih
    · rw [raProcessAuthors, List.foldl_cons, validNames, List.filterMap_cons]
      simp only [hn]
      by_cases hz : nm = ""
      · rw [if_pos hz, if_pos hz]
        have hih := ih stats
        rw [raProcessAuthors, validNames] at hih
        exact hih
      · rw [if_neg hz, if_neg hz, List.countP_cons]
        have hih := ih (raBump stats nm cit pd t)
        rw [raProcessAuthors, validNames] at hih
        rw [hih, raCountOf_raBump]
        by_cases hm : nm = m
        · simp only [hm, decide_eq_true_eq, if_pos trivial, if_pos rfl]
          omega
        · simp only [if_neg hm, decide_eq_false hm, Bool.false_eq_true,
            if_neg (fun h => h : ¬ False)]
          omega

theorem raCountOf_raStats_aux (rows : List OpenAlexRow) :
    ∀ (stats : List (String × RAStat)) (m : String),
      raCountOf
        (rows.foldl
          (fun st r =>
            raProcessAuthors st r.authors_json (r.cited_by_count.getD 0)
              r.publication_date r.title)
          stats) m =
      raCountOf stats m +
        (rows.map fun r =>
          (validNames r.authors_json).countP (fun s => decide (s = m))).sum := by
  induction rows with
  | nil => intro stats m; rw [List.foldl_nil, List.map_nil, List.sum_nil, Nat.add_zero]
  | cons r rest ih =>
    intro stats m
    rw [List.foldl_cons, List.map_cons, List.sum_cons, ih, raCountOf_processAuthors]
    omega

theorem countP_eq_of_nodup (l : List String) (m : String) (h : l.Nodup) :
    l.countP (fun s => decide (s = m)) = if m ∈ l then 1 else 0 := by
  induction l with
  | nil => simp
  | cons a t ih =>
    rcases List.pairwise_cons.mp h with ⟨hat, ht⟩
    rw [List.countP_cons, ih ht]
    by_cases ham : a = m
    · have hmt : m ∉ t := fun hmem => hat m hmem ham
      subst ham
      simp [hmt]
    · have hma : ¬ m = a := fun hx => ham hx.symm
      by_cases hmt : m ∈ t
      · simp [hmt, ham, hma]
      · simp [hmt, ham, hma]

theorem sum_occurrences_eq_countRows (rows : List OpenAlexRow) (name : String)
    (h : ∀ r ∈ rows, (validNames r.authors_json).Nodup) :
    (rows.map fun r =>
      (validNames r.authors_json).countP (fun s => decide (s = name))).sum =
    countRowsWith rows name := by
  induction rows with
  | nil => rfl
  | cons r rest ih =>
    rw [List.map_cons, List.sum_cons, countRowsWith, List.countP_cons,
      ← countRowsWith, ih fun x hx => h x (List.mem_cons_of_mem _ hx),
      countP_eq_of_nodup _ _ (h r (List.mem_cons_self _ _))]
    by_cases hm : name ∈ validNames r.authors_json
    · rw [if_pos hm, if_pos (by simpa using hm)]
      omega
    · rw [if_neg hm, if_neg (by simpa using hm)]
      omega

theorem garUpdate_papers (s : GARStat) (cit : ℕ) (py : Option ℕ)
    (pd t : Option String) : (garUpdate s cit py pd t).papers = s.papers + 1 := by
  rcases py with _ | y <;> rcases pd with _ | p
  · rfl
  · rw [garUpdate.eq_def]
    dsimp only
    split
    · rfl
    · rfl
  · rfl
  · rw [garUpdate.eq_def]
    dsimp only
    split
    · rfl
    · rfl

theorem garPapersOf_garBump (stats : List (String × GARStat)) (name : String)
    (cit : ℕ) (py : Option ℕ) (pd t : Option String) (m : String) :
    garPapersOf (garBump stats name cit py pd t) m =
      garPapersOf stats m + (if name = m then 1 else 0) := by
  induction stats with
  | nil =>
    simp only [garBump, garPapersOf]
    by_cases h : name = m
    · rw [if_pos h, if_pos h, garUpdate_papers]
      rfl
    · rw [if_neg h, if_neg h]
  | cons e rest ih =>
    rw [garBump]
    by_cases he : e.1 = name
    · rw [if_pos he]
      simp only [garPapersOf]
      by_cases hm : e.1 = m
      · have hnm : name = m := he ▸ hm
        rw [if_pos hm, if_pos hm, garUpdate_papers, if_pos hnm]
      · have hnm : ¬ name = m := fun hx => hm (he.trans hx)
        rw [if_neg hm, if_neg hm, if_neg hnm, Nat.add_zero]
    · rw [if_neg he]
      simp only [garPapersOf]
      by_cases hm : e.1 = m
      · have hnm : ¬ name = m := fun hx => he (hm.trans hx.symm)
        rw [if_pos hm, if_pos hm, if_neg hnm, Nat.add_zero]
      · rw [if_neg hm, if_neg hm]
        exact ih

theorem garPapersOf_processAuthors (authors : List AuthorEntry)
    (stats : List (String × GARStat)) (cit : ℕ) (py : Option ℕ)
    (pd t : Option String) (m : String) :
    garPapersOf (garProcessAuthors stats authors cit py pd t) m =
      garPapersOf stats m +
        (validNames authors).countP (fun s => decide (s = m)) := by
  induction authors generalizing stats with
  | nil =>
    rw [garProcessAuthors, List.foldl_nil, validNames, List.filterMap_nil,
      List.countP_nil, Nat.add_zero]
  | cons au rest ih =>
    rcases hn : au.name with _ | nm
    · rw [garProcessAuthors, List.foldl_cons, validNames, List.filterMap_cons]
      simp only [hn]
      have hih := ih stats
      rw [garProcessAuthors, validNames] at hih
      exact hih
    · rw [garProcessAuthors, List.foldl_cons, validNames, List.filterMap_cons]
      simp only [hn]
      by_cases hz : nm = ""
      · rw [if_pos hz, if_pos hz]
        have hih := ih stats
        rw [garProcessAuthors, validNames] at hih
        exact hih
      · rw [if_neg hz, if_neg hz, List.countP_cons]
        have hih := ih (garBump stats nm cit py pd t)
        rw [garProcessAuthors, validNames] at hih
        rw [hih, garPapersOf_garBump]
        by_cases hm : nm = m
        · simp only [hm, decide_eq_true_eq, if_pos trivial, if_pos rfl]
          omega
        · simp only [if_neg hm, decide_eq_false hm, Bool.false_eq_true,
            if_neg (fun h => h : ¬ False)]
          omega

theorem garPapersOf_garStats_aux (rows : List OpenAlexRow) :
    ∀ (stats : List (String × GARStat)) (m : String),
      garPapersOf
        (rows.foldl
          (fun st r =>
            garProcessAuthors st r.authors_json (r.cited_by_count.getD 0)
              (paperYear r.publication_date) r.publication_date r.title)
          stats) m =
      garPapersOf stats m +
        (rows.map fun r =>
          (validNames r.authors_json).countP (fun s => decide (s = m))).sum := by
  induction rows with
  | nil => intro stats m; rw [List.foldl_nil, List.map_nil, List.sum_nil, Nat.add_zero]
  | cons r rest ih =>
    intro stats m
    rw [List.foldl_cons, List.map_cons, List.sum_cons, ih, garPapersOf_processAuthors]
    omega

/-! ## C1 -/

/-- C1. The claim says the reported paper count always equals the number of
distinct rows whose author list contains the name. A stored `authors_json`
listing the same name twice breaks it: both aggregations count the occurrence
twice for a single row. -/
theorem c1_counterexample :
    raCountOf (raStats dupAuthorRows) "Ada Smith" = 2
    ∧ garPapersOf (garStats dupAuthorRows) "Ada Smith" = 2
    ∧ countRowsWith dupAuthorRows "Ada Smith" = 1 := by
  refine ⟨by decide, by decide, by decide⟩

/-- C1 (amended). For every snapshot in which no article row's parsed author
list holds the same truthy name twice, the paper count the ranking operations
report for an author (`rank_authors` and `get_author_rankings` aggregate alike)
equals the number of article rows whose stored author list contains that
name. -/
theorem c1_amended (rows : List OpenAlexRow) (name : String)
    (h : ∀ r ∈ rows, (validNames r.authors_json).Nodup) :
    raCountOf (raStats rows) name = countRowsWith rows name
    ∧ garPapersOf (garStats rows) name = countRowsWith rows name := by
  constructor
  · rw [raStats, raCountOf_raStats_aux rows [] name, raCountOf,
      sum_occurrences_eq_countRows rows name h, Nat.zero_add]
  · rw [garStats, garPapersOf_garStats_aux rows [] name, garPapersOf,
      sum_occurrences_eq_countRows rows name h, Nat.zero_add]

theorem c1_witness :
    raCountOf (raStats nodupAuthorRows) "Ada Smith" =
        countRowsWith nodupAuthorRows "Ada Smith"
    ∧ garPapersOf (garStats nodupAuthorRows) "Ada Smith" =
        countRowsWith nodupAuthorRows "Ada Smith" :=
  c1_amended nodupAuthorRows "Ada Smith" (by decide)

/-! ## C5 -/

theorem natLtB_false (a b : ℕ) (h : natLtB a b = false) : b ≤ a := by
  simp only [natLtB, decide_eq_false_iff_not, Nat.not_lt] at h
  exact h

theorem lexLtB_false (a b : ℕ × ℕ) (h : lexLtB a b = false) :
    b.1 < a.1 ∨ (b.1 = a.1 ∧ b.2 ≤ a.2) := by
  simp only [lexLtB, Bool.or_eq_false_iff, Bool.and_eq_false_iff,
    decide_eq_false_iff_not, Nat.not_lt] at h
  omega

/-- C5. The claim says all three ranking outputs break paper-count ties by
citation total descending. `make_author_list` sorts by paper count only: on a
snapshot where the first-seen author has 0 citations and the second 5, both
with one paper, it ranks the 0-citation author first. -/
theorem c5_counterexample :
    make_author_list_ranked tieBreakRows = [("Xi Chen", 1), ("Yuri Orlov", 1)]
    ∧ raCitationsOf (raStats tieBreakRows) "Xi Chen" = 0
    ∧ raCitationsOf (raStats tieBreakRows) "Yuri Orlov" = 5 := by
  refine ⟨by decide, by decide, by decide⟩

/-- C5 (amended). `rank_authors` and `get_author_rankings` are sorted by paper
count descending with ties broken by citation total descending; the ranking
`make_author_list` writes is sorted by paper count descending only (equal
counts keep their first-seen dictionary order, the citation totals are not
consulted). -/
theorem c5_amended (rows : List OpenAlexRow) (top_n : ℕ) :
    ((rank_authors rows).Pairwise fun x y =>
      y.2.count < x.2.count ∨ (y.2.count = x.2.count ∧ y.2.citations ≤ x.2.citations))
    ∧ ((get_author_rankings rows top_n).Pairwise fun x y =>
      y.papers < x.papers ∨ (y.papers = x.papers ∧ y.citations ≤ x.citations))
    ∧ ((make_author_list_ranked rows).Pairwise fun x y => y.2 ≤ x.2) := by
  refine ⟨?_, ?_, ?_⟩
  · have hp := pySortDesc_pairwise lexLtB (fun e : String × RAStat => (e.2.count, e.2.citations))
      lexLtB_trans_false lexLtB_asymm (raStats rows)
    exact hp.imp fun h => lexLtB_false _ _ h
  · have hp := pySortDesc_pairwise lexLtB (fun e : GAREntry => (e.papers, e.citations))
      lexLtB_trans_false lexLtB_asymm ((garStats rows).map garEntry)
    have hs := hp.sublist (List.take_sublist top_n _)
    exact hs.imp fun h => lexLtB_false _ _ h
  · have hp := pySortDesc_pairwise natLtB (fun e : String × ℕ => e.2)
      natLtB_trans_false natLtB_asymm (mkCounts rows)
    exact hp.imp fun h => natLtB_false _ _ h

/-! ## C6: decimal and CSV round-trips -/

theorem digitChar_facts : ∀ d < 10,
    (Nat.digitChar d).isDigit = true ∧ charDigitVal (Nat.digitChar d) = d := by
  decide

theorem strToNat?_natStr (n : ℕ) : strToNat? (natStr n) = some n := by
  by_cases h0 : n = 0
  · subst h0
    decide
  · rw [natStr, if_neg h0]
    have hds : ∀ d ∈ Nat.digits 10 n, d < 10 :=
      fun d hd => Nat.digits_lt_base (by norm_num) hd
    have hnil : Nat.digits 10 n ≠ [] := Nat.digits_ne_nil_iff_ne_zero.mpr h0
    have hlnil : (Nat.digits 10 n).reverse.map Nat.digitChar ≠ [] := by
      intro hx
      rcases List.map_eq_nil_iff.mp hx with hrev
      exact hnil (List.reverse_eq_nil_iff.mp hrev)
    have hne : (⟨(Nat.digits 10 n).reverse.map Nat.digitChar⟩ : String) ≠ "" := by
      intro hx
      apply hlnil
      have hdata : ((⟨(Nat.digits 10 n).reverse.map Nat.digitChar⟩ : String)).data =
          ("" : String).data := by rw [hx]
      simpa using hdata
    have hall : ((Nat.digits 10 n).reverse.map Nat.digitChar).all Char.isDigit = true := by
      rw [List.all_eq_true]
      intro c hc
      rcases List.mem_map.mp hc with ⟨d, hd, rfl⟩
      exact (digitChar_facts d (hds d (List.mem_reverse.mp hd))).1
    have hmap : ((Nat.digits 10 n).reverse.map Nat.digitChar).map charDigitVal =
        (Nat.digits 10 n).reverse := by
      rw [List.map_map]
      have hcongr : ∀ d ∈ (Nat.digits 10 n).reverse,
          (charDigitVal ∘ Nat.digitChar) d = d :=
        fun d hd => (digitChar_facts d (hds d (List.mem_reverse.mp hd))).2
      calc ((Nat.digits 10 n).reverse).map (charDigitVal ∘ Nat.digitChar)
          = ((Nat.digits 10 n).reverse).map id := List.map_congr_left hcongr
        _ = (Nat.digits 10 n).reverse := List.map_id _
    have htl : (⟨(Nat.digits 10 n).reverse.map Nat.digitChar⟩ : String).toList =
        (Nat.digits 10 n).reverse.map Nat.digitChar := rfl
    rw [strToNat?, if_neg hne, htl, if_pos hall, hmap, List.reverse_reverse,
      Nat.ofDigits_digits]

theorem readAuthorList_rows_aux (l : List (ℕ × String × ℕ)) :
    (l.map fun e => [natStr e.1, e.2.1, natStr e.2.2]).mapM
      (fun fields => do
        let rs ← fields.get? 0
        let r ← strToNat? rs
        let nm ← fields.get? 1
        let cs ← fields.get? 2
        let c ← strToNat? cs
        pure (⟨r, nm, c⟩ : AuthorRec)) =
    some (l.map fun e => ⟨e.1, e.2.1, e.2.2⟩) := by
  induction l with
  | nil => rfl
  | cons e t ih =>
    rw [List.map_cons, List.map_cons, List.mapM_cons]
    have hrow : (do
        let rs ← [natStr e.1, e.2.1, natStr e.2.2].get? 0
        let r ← strToNat? rs
        let nm ← [natStr e.1, e.2.1, natStr e.2.2].get? 1
        let cs ← [natStr e.1, e.2.1, natStr e.2.2].get? 2
        let c ← strToNat? cs
        pure (⟨r, nm, c⟩ : AuthorRec)) = some ⟨e.1, e.2.1, e.2.2⟩ := by
      simp [strToNat?_natStr]
    rw [hrow, ih]
    rfl

/-- C6. The author-list CSV round-trips losslessly: writing a ranked author
list with `make_author_list`'s fixed header and `[rank, name, count]` rows and
re-importing it with `read_author_list` yields the same sequence of
(rank, author name, paper count), in the same order. -/
theorem c6_csv_roundtrip (tops : List (String × ℕ)) :
    read_author_list (makeAuthorListCsv tops) =
      some ((tops.enumFrom 1).map fun e =>
        { rank := e.1, name := e.2.1, paper_count := e.2.2 }) := by
  rw [makeAuthorListCsv, read_author_list]
  have h0 : (["Rank", "Author Name", "Paper Count"] : List String).indexOf "Rank" = 0 := by
    decide
  have h1 : (["Rank", "Author Name", "Paper Count"] : List String).indexOf "Author Name" = 1 := by
    decide
  have h2 : (["Rank", "Author Name", "Paper Count"] : List String).indexOf "Paper Count" = 2 := by
    decide
  rw [h0, h1, h2]
  exact readAuthorList_rows_aux (tops.enumFrom 1)

/-! ## C4 -/

theorem fetch_articles_all_pages (pages : List (PageOf Work))
    (h : cursorLinked pages = true) :
    fetch_articles pages = (pages.map fun p => p.results.map workToArticle).flatten := by
  induction pages with
  | nil => rfl
  | cons p rest ih =>
    rcases rest with _ | ⟨q, rest'⟩
    · rw [cursorLinked] at h
      have hfalse : truthyS p.next_cursor = false := by
        rcases hb : truthyS p.next_cursor
        · rfl
        · rw [hb] at h; exact absurd h (by decide)
      rw [fetch_articles, hfalse]
      simp
    · rw [cursorLinked] at h
      rcases Bool.and_eq_true_iff.mp h with ⟨h1, h2⟩
      rw [fetch_articles, h1, if_pos rfl, ih h2]
      simp

/-- C4. The claim says both paginated fetches consume every page until no
`next_cursor` is returned. `fetch_articles` does; the per-author works request
of `get_wp.py`, handed the first page of a two-page cursor-linked response
sequence, returns only that first page's results, not the results of all
pages. -/
theorem c4_counterexample :
    cursorLinked twoArticlePages = true
    ∧ fetch_articles twoArticlePages = [workToArticle pageWork1, workToArticle pageWork2]
    ∧ cursorLinked twoWpPages = true
    ∧ fetch_working_papers_for_author "Jane Doe|A1" (.exc "unused")
        (.ok 200 (twoWpPages.headD ⟨[], none⟩).results) =
        [wpWorkToPaper "Jane Doe" wpWork1]
    ∧ [wpWorkToPaper "Jane Doe" wpWork1] ≠
        (twoWpPages.map fun p => p.results.map (wpWorkToPaper "Jane Doe")).flatten := by
  refine ⟨by decide, by decide, by decide, by decide, by decide⟩

/-- C4 (amended). `fetch_articles` consumes pages through the cursor token
until a response carries no truthy `next_cursor`, yielding the results of all
pages; the per-author works fetch of `get_wp.py` issues a single request with
no cursor loop, so it returns exactly the mapped results of the one response
page it receives. -/
theorem c4_amended (pages : List (PageOf Work)) (name disp aid : String)
    (search : HttpResult (List String)) (ws : List WpWork) :
    (cursorLinked pages = true →
      fetch_articles pages = (pages.map fun p => p.results.map workToArticle).flatten)
    ∧ (pySplitBar name = some (disp, aid) →
      fetch_working_papers_for_author name search (.ok 200 ws) =
        ws.map (wpWorkToPaper (pyStrip disp))) := by
  constructor
  · exact fetch_articles_all_pages pages
  · intro hb
    rw [fetch_working_papers_for_author.eq_def, hb]
    rw [fetchWorksRequest]
    have h200 : raisesForStatus 200 = false := by decide
    rw [h200]
    rfl

/-! ## C9 -/

theorem fetchWorksRequest_exc (nm e : String) :
    fetchWorksRequest nm (.exc e) = [] := rfl

theorem fetchWorksRequest_err (nm : String) (st : ℕ) (ws : List WpWork)
    (h1 : 400 ≤ st) (h2 : st < 600) :
    fetchWorksRequest nm (.ok st ws) = [] := by
  rw [fetchWorksRequest]
  have hr : raisesForStatus st = true := by
    rw [raisesForStatus]
    simp [h1, h2]
  rw [hr, if_pos rfl]

/-- C9. The claim says both the JF issue scraper pipeline and
`fetch_working_papers_for_author` return an empty article list when an HTTP
fetch fails with a non-200 status or a request exception. The JF pipeline
catches no request exception: `requests.get` is called outside any
`try/except`, so an exception propagates to the caller instead of producing an
empty list. -/
theorem c9_counterexample :
    scrapeJfPipeline (.exc "connection reset") = .error "connection reset"
    ∧ scrapeJfPipeline (.exc "connection reset") ≠
        (.ok [] : Except String (List String)) := by
  have h1 : scrapeJfPipeline (.exc "connection reset") = .error "connection reset" := rfl
  refine ⟨h1, ?_⟩
  rw [h1]
  intro h
  exact Except.noConfusion h

/-- C9 (amended). On a non-200 status the JF issue pipeline returns the empty
list (printing and passing `None` to the extractor), but a raised request
exception propagates uncaught. `fetch_working_papers_for_author` returns `[]`
on a request exception or an error status (4xx/5xx) of either of its two
requests, the author search (when the name carries no id) and the works
fetch. -/
theorem c9_amended (st : ℕ) (soup : Soup) (e name e' : String)
    (search : HttpResult (List String)) (works : HttpResult (List WpWork))
    (ws : List WpWork) (ids : List String) (st' : ℕ) :
    (st ≠ 200 → scrapeJfPipeline (.ok st soup) = .ok [])
    ∧ scrapeJfPipeline (.exc e) = .error e
    ∧ fetch_working_papers_for_author name search (.exc e') = []
    ∧ (400 ≤ st' → st' < 600 →
        fetch_working_papers_for_author name search (.ok st' ws) = [])
    ∧ (pySplitBar name = none →
        fetch_working_papers_for_author name (.exc e') works = [])
    ∧ (pySplitBar name = none → 400 ≤ st' → st' < 600 →
        fetch_working_papers_for_author name (.ok st' ids) works = []) := by
  refine ⟨?_, rfl, ?_, ?_, ?_, ?_⟩
  · intro h
    rw [scrapeJfPipeline, scrape_jf_issue, if_neg h]
    rfl
  · rw [fetch_working_papers_for_author.eq_def]
    rcases hb : pySplitBar name with _ | ⟨nm, i⟩
    · dsimp only
      rcases search with ⟨sst, sids⟩ | se
      · dsimp only
        by_cases hr : raisesForStatus sst
        · rw [if_pos hr]
        · rw [if_neg hr]
          rcases sids with _ | ⟨i0, irest⟩
          · rfl
          · exact fetchWorksRequest_exc name e'
      · rfl
    · exact fetchWorksRequest_exc (pyStrip nm) e'
  · intro h1 h2
    rw [fetch_working_papers_for_author.eq_def]
    rcases hb : pySplitBar name with _ | ⟨nm, i⟩
    · dsimp only
      rcases search with ⟨sst, sids⟩ | se
      · dsimp only
        by_cases hr : raisesForStatus sst
        · rw [if_pos hr]
        · rw [if_neg hr]
          rcases sids with _ | ⟨i0, irest⟩
          · rfl
          · exact fetchWorksRequest_err name st' ws h1 h2
      · rfl
    · exact fetchWorksRequest_err (pyStrip nm) st' ws h1 h2
  · intro hb
    rw [fetch_working_papers_for_author.eq_def, hb]
  · intro hb h1 h2
    rw [fetch_working_papers_for_author.eq_def, hb]
    dsimp only
    have hr : raisesForStatus st' = true := by
      rw [raisesForStatus]
      simp [h1, h2]
    rw [hr, if_pos rfl]

end FinancePapers

